import Mathlib

/-!
Shallow embedding of `src/working_time.py` (class `WorkingTimeCalculator`).

Modelling conventions:
* A civil instant (`datetime`) is a natural number of minutes since an epoch
  midnight that falls on a Monday (Python's proleptic ordinal day 1,
  0001-01-01, is a Monday, so `weekday = day_index % 7` with Monday = 0,
  exactly as `datetime.weekday()`).
* A `time` value (wall-clock time of day) is a number of minutes since
  midnight; `datetime.combine(date, t)` is `date * 1440 + t`.
* A Python `str` is a list of Unicode code points (`List Char`);
  `str.lower()` is modelled for the alphabets that actually occur
  (ASCII and Cyrillic), `str.strip()` drops whitespace from both ends,
  and `a in b` is substring containment.
* Real (float) arithmetic on hours is modelled exactly by `ℚ`;
  `timedelta.total_seconds() / 3600` on minute-resolution instants is
  `minutes / 60`.
-/

/-- Number of minutes in a calendar day. -/
def minutesPerDay : ℕ := 1440

/-- Lowercasing of one code point, covering the ASCII and Cyrillic letters
that occur in the schedule keys (model of Python `str.lower` restricted to
the alphabets used by the program). -/
def ruCharLower (c : Char) : Char :=
  if 0x410 ≤ c.toNat ∧ c.toNat ≤ 0x42F then Char.ofNat (c.toNat + 0x20)
  else if c.toNat = 0x401 then Char.ofNat 0x451
  else if 65 ≤ c.toNat ∧ c.toNat ≤ 90 then Char.ofNat (c.toNat + 32)
  else c

/-- Model of Python `str.strip()`: drop whitespace from both ends. -/
def pyStrip (l : List Char) : List Char :=
  ((l.dropWhile Char.isWhitespace).reverse.dropWhile Char.isWhitespace).reverse

/-- Weekly schedule of one city: the `"weekdays"` (Mon-Thu) window and the
`"friday"` window, each an (open, close) pair of minutes since midnight. -/
structure Schedule where
  weekdays : ℕ × ℕ
  friday : ℕ × ℕ
deriving DecidableEq

/-- The `CITY_SCHEDULES` table, in Python dict insertion order
(iteration order is significant for the substring fallback). -/
def CITY_SCHEDULES : List (List Char × Schedule) :=
  [("москва".toList, ⟨(540, 1080), (540, 1005)⟩),
   ("нижний новгород".toList, ⟨(540, 1080), (540, 1005)⟩),
   ("саров".toList, ⟨(540, 1080), (540, 1005)⟩),
   ("новоуральск".toList, ⟨(360, 900), (360, 900)⟩),
   ("краснокаменск".toList, ⟨(180, 720), (180, 705)⟩)]

/-- The `DEFAULT_SCHEDULE` used for cities absent from `CITY_SCHEDULES`. -/
def DEFAULT_SCHEDULE : Schedule := ⟨(540, 1080), (540, 1005)⟩

/-- Model of the Python substring test `needle in hay`: true exactly when
`needle` occurs contiguously inside `hay`. -/
def pyIn (needle hay : List Char) : Bool :=
  needle.isPrefixOf hay ||
    match hay with
    | [] => false
    | _ :: t => pyIn needle t

/-- Model of `WorkingTimeCalculator.normalize_city_name`:
lowercase and strip, then exact key match, then substring containment
match in either direction (first match in table order), else the
lowercased input itself. -/
def normalize_city_name (city : List Char) : List Char :=
  if city = [] then []
  else
    let city_lower := pyStrip (city.map ruCharLower)
    match CITY_SCHEDULES.find? (fun p => p.1 == city_lower) with
    | some p => p.1
    | none =>
      match CITY_SCHEDULES.find?
          (fun p => pyIn p.1 city_lower || pyIn city_lower p.1) with
      | some p => p.1
      | none => city_lower

/-- Model of `WorkingTimeCalculator.is_working_day`: weekday Mon-Fri. -/
def is_working_day (dt : ℕ) : Bool := dt / minutesPerDay % 7 < 5

/-- Model of `WorkingTimeCalculator.get_working_hours`: resolve the city's
schedule (falling back to `DEFAULT_SCHEDULE`) and return the Friday window
on Fridays, else the Mon-Thu window.  Note: the code never returns `none`
even on weekends. -/
def get_working_hours (dt : ℕ) (city : List Char) : Option (ℕ × ℕ) :=
  let city_normalized := normalize_city_name city
  let schedule :=
    match CITY_SCHEDULES.find? (fun p => p.1 == city_normalized) with
    | some p => p.2
    | none => DEFAULT_SCHEDULE
  if dt / minutesPerDay % 7 = 4 then some schedule.friday
  else some schedule.weekdays

/-- Instant of midnight `k` calendar days after the day containing `cur`:
model of `datetime.combine(current_date + timedelta(days=k), time(0, 0))`. -/
def next_day_start (cur : ℕ) (k : ℕ) : ℕ := (cur / minutesPerDay + k) * minutesPerDay

/-- Contribution of the current day inside the loop of
`calculate_working_time` (lines 121-135 of the source): clamp the window to
the overall span on the first and last day and add the positive overlap, in
hours. -/
def dayTerm (start_dt end_dt current_dt work_start work_end : ℕ) : ℚ :=
  let current_date := current_dt / minutesPerDay
  let day_start :=
    if current_date = start_dt / minutesPerDay
    then max current_dt (current_date * minutesPerDay + work_start)
    else current_date * minutesPerDay + work_start
  let day_end :=
    if current_date = end_dt / minutesPerDay
    then min end_dt (current_date * minutesPerDay + work_end)
    else current_date * minutesPerDay + work_end
  if day_start < day_end
  then max 0 (((day_end : ℚ) - (day_start : ℚ)) / 60)
  else 0

/-- The `while current_dt < end_dt` day-walking loop of
`calculate_working_time`: skip Saturday to Monday midnight and Sunday to
Monday midnight, take the defensive no-window branch if the lookup yields
nothing, otherwise accumulate the clamped day overlap and advance the
cursor to the next midnight. -/
def wtLoop (start_dt end_dt : ℕ) (city : List Char) (current_dt : ℕ) : ℚ :=
  if h : current_dt < end_dt then
    if is_working_day current_dt = false then
      if current_dt / minutesPerDay % 7 = 5 then
        wtLoop start_dt end_dt city (next_day_start current_dt 2)
      else if current_dt / minutesPerDay % 7 = 6 then
        wtLoop start_dt end_dt city (next_day_start current_dt 1)
      else
        wtLoop start_dt end_dt city (current_dt + minutesPerDay)
    else
      match get_working_hours current_dt city with
      | none => wtLoop start_dt end_dt city (next_day_start current_dt 1)
      | some (work_start, work_end) =>
        dayTerm start_dt end_dt current_dt work_start work_end
          + wtLoop start_dt end_dt city (next_day_start current_dt 1)
  else 0
termination_by end_dt - current_dt
decreasing_by
  all_goals simp only [next_day_start, minutesPerDay] at *
  all_goals omega

/-- Model of `WorkingTimeCalculator.calculate_working_time`:
return 0 when `start_dt >= end_dt`, else run the day-walking loop. -/
def calculate_working_time (start_dt end_dt : ℕ) (city : List Char) : ℚ :=
  if end_dt ≤ start_dt then 0 else wtLoop start_dt end_dt city start_dt

/-- Iteration counter of the day-walking loop of `calculate_working_time`:
same branch structure and same cursor updates as `wtLoop`, returning how
many times the loop body runs. -/
def wtCount (start_dt end_dt : ℕ) (city : List Char) (current_dt : ℕ) : ℕ :=
  if h : current_dt < end_dt then
    if is_working_day current_dt = false then
      if current_dt / minutesPerDay % 7 = 5 then
        1 + wtCount start_dt end_dt city (next_day_start current_dt 2)
      else if current_dt / minutesPerDay % 7 = 6 then
        1 + wtCount start_dt end_dt city (next_day_start current_dt 1)
      else
        1 + wtCount start_dt end_dt city (current_dt + minutesPerDay)
    else
      match get_working_hours current_dt city with
      | none => 1 + wtCount start_dt end_dt city (next_day_start current_dt 1)
      | some _ => 1 + wtCount start_dt end_dt city (next_day_start current_dt 1)
  else 0
termination_by end_dt - current_dt
decreasing_by
  all_goals simp only [next_day_start, minutesPerDay] at *
  all_goals omega

/-- Model of `WorkingTimeCalculator.calculate_reaction_time`: `none` if
either instant is absent, `0` if `start_dt <= assigned_dt`, else delegate
to `calculate_working_time`. -/
def calculate_reaction_time (assigned_dt start_dt : Option ℕ) (city : List Char) :
    Option ℚ :=
  match assigned_dt, start_dt with
  | some a, some s =>
    if s ≤ a then some 0 else some (calculate_working_time a s city)
  | _, _ => none

/-- Exact number of working minutes of calendar day `d` that fall inside
the span `[start_dt, end_dt]`: zero on weekends, else the clamped overlap
of the span with the day's window.  This is the per-day specification the
loop is proved to sum. -/
def dayOverlapMinutes (start_dt end_dt : ℕ) (city : List Char) (d : ℕ) : ℤ :=
  if 5 ≤ d % 7 then 0
  else
    match get_working_hours (d * minutesPerDay) city with
    | none => 0
    | some (work_start, work_end) =>
      max 0 (((min end_dt (d * minutesPerDay + work_end) : ℕ) : ℤ)
        - ((max start_dt (d * minutesPerDay + work_start) : ℕ) : ℤ))

lemma get_working_hours_isSome (dt : ℕ) (city : List Char) :
    ∃ w, get_working_hours dt city = some w := by
  unfold get_working_hours
  split <;> exact ⟨_, rfl⟩

lemma get_working_hours_congr (dt1 dt2 : ℕ) (city : List Char)
    (h : dt1 / minutesPerDay % 7 = dt2 / minutesPerDay % 7) :
    get_working_hours dt1 city = get_working_hours dt2 city := by
  unfold get_working_hours
  rw [h]

lemma schedule_mem_bounds :
    ∀ p ∈ CITY_SCHEDULES, p.2.weekdays.1 < minutesPerDay ∧ p.2.weekdays.2 < minutesPerDay ∧
      p.2.friday.1 < minutesPerDay ∧ p.2.friday.2 < minutesPerDay := by decide

lemma get_working_hours_lt (dt : ℕ) (city : List Char) (ws we : ℕ)
    (h : get_working_hours dt city = some (ws, we)) :
    ws < minutesPerDay ∧ we < minutesPerDay := by
  simp only [get_working_hours] at h
  rcases hf : CITY_SCHEDULES.find? (fun p => p.1 == normalize_city_name city) with _ | p <;>
    rw [hf] at h
  · split at h <;>
      simp only [Option.some.injEq, DEFAULT_SCHEDULE, Prod.ext_iff] at h <;>
      simp only [minutesPerDay] <;> omega
  · have hb := schedule_mem_bounds p (List.mem_of_find?_eq_some hf)
    simp only [minutesPerDay] at hb ⊢
    split at h <;> simp only [Option.some.injEq, Prod.ext_iff] at h <;> omega

lemma dayOverlapMinutes_nonneg (s e : ℕ) (city : List Char) (d : ℕ) :
    0 ≤ dayOverlapMinutes s e city d := by
  unfold dayOverlapMinutes
  split
  · exact le_refl 0
  · rcases h : get_working_hours (d * minutesPerDay) city with _ | ⟨ws, we⟩ <;> simp [h]

lemma dayOverlapMinutes_weekend (s e : ℕ) (city : List Char) (d : ℕ)
    (h : 5 ≤ d % 7) : dayOverlapMinutes s e city d = 0 := by
  unfold dayOverlapMinutes
  rw [if_pos h]

lemma dayOverlapMinutes_eq_zero_left (s e : ℕ) (city : List Char) (d : ℕ)
    (h : e ≤ max s (d * minutesPerDay)) :
    dayOverlapMinutes s e city d = 0 := by
  unfold dayOverlapMinutes
  split
  · rfl
  · rcases hg : get_working_hours (d * minutesPerDay) city with _ | ⟨ws, we⟩ <;> simp only [hg]
    have : min e (d * minutesPerDay + we) ≤ max s (d * minutesPerDay + ws) := by omega
    rw [max_eq_left]
    omega

lemma dayOverlapMinutes_eq_zero_right (s e : ℕ) (city : List Char) (d : ℕ)
    (h : (d + 1) * minutesPerDay ≤ s) :
    dayOverlapMinutes s e city d = 0 := by
  unfold dayOverlapMinutes
  split
  · rfl
  · rcases hg : get_working_hours (d * minutesPerDay) city with _ | ⟨ws, we⟩ <;> simp only [hg]
    have hb := get_working_hours_lt _ _ _ _ hg
    have : min e (d * minutesPerDay + we) ≤ max s (d * minutesPerDay + ws) := by
      simp only [minutesPerDay] at *
      omega
    rw [max_eq_left]
    omega

lemma dayTerm_eq (s e cur ws we : ℕ) (city : List Char)
    (hlt : cur < e)
    (hinv : cur = s ∨ (cur % minutesPerDay = 0 ∧ s / minutesPerDay < cur / minutesPerDay))
    (hwd : cur / minutesPerDay % 7 < 5)
    (hgw : get_working_hours cur city = some (ws, we)) :
    dayTerm s e cur ws we =
      ((dayOverlapMinutes s e city (cur / minutesPerDay) : ℤ) : ℚ) / 60 := by
  have hb := get_working_hours_lt _ _ _ _ hgw
  have hd1440 : cur / minutesPerDay * minutesPerDay / minutesPerDay = cur / minutesPerDay :=
    Nat.mul_div_cancel _ (by simp [minutesPerDay])
  have hgw' : get_working_hours (cur / minutesPerDay * minutesPerDay) city = some (ws, we) := by
    rw [get_working_hours_congr (cur / minutesPerDay * minutesPerDay) cur city
      (by rw [hd1440])]
    exact hgw
  unfold dayTerm dayOverlapMinutes
  dsimp only
  rw [if_neg (show ¬ 5 ≤ cur / minutesPerDay % 7 by omega), hgw']
  dsimp only
  have hds : (if cur / minutesPerDay = s / minutesPerDay
      then max cur (cur / minutesPerDay * minutesPerDay + ws)
      else cur / minutesPerDay * minutesPerDay + ws)
      = max s (cur / minutesPerDay * minutesPerDay + ws) := by
    by_cases hd : cur / minutesPerDay = s / minutesPerDay
    · rw [if_pos hd]
      rcases hinv with rfl | ⟨hmod, hlt2⟩
      · rfl
      · omega
    · rw [if_neg hd]
      rcases hinv with rfl | ⟨hmod, hlt2⟩
      · exact absurd rfl hd
      · have : s < cur / minutesPerDay * minutesPerDay := by
          simp only [minutesPerDay] at *
          omega
        omega
  have hde : (if cur / minutesPerDay = e / minutesPerDay
      then min e (cur / minutesPerDay * minutesPerDay + we)
      else cur / minutesPerDay * minutesPerDay + we)
      = min e (cur / minutesPerDay * minutesPerDay + we) := by
    by_cases hd : cur / minutesPerDay = e / minutesPerDay
    · rw [if_pos hd]
    · rw [if_neg hd]
      have hdle : cur / minutesPerDay ≤ e / minutesPerDay := Nat.div_le_div_right hlt.le
      have : cur / minutesPerDay * minutesPerDay + we < e := by
        simp only [minutesPerDay] at *
        omega
      omega
  rw [hds, hde]
  by_cases hc : max s (cur / minutesPerDay * minutesPerDay + ws)
      < min e (cur / minutesPerDay * minutesPerDay + we)
  · rw [if_pos hc]
    rw [max_eq_right (sub_nonneg.mpr (show ((max s (cur / minutesPerDay * minutesPerDay + ws) : ℕ) : ℤ)
        ≤ ((min e (cur / minutesPerDay * minutesPerDay + we) : ℕ) : ℤ) from by exact_mod_cast hc.le))]
    have h0 : (0 : ℚ) ≤ (((min e (cur / minutesPerDay * minutesPerDay + we) : ℕ) : ℚ)
        - ((max s (cur / minutesPerDay * minutesPerDay + ws) : ℕ) : ℚ)) / 60 := by
      apply div_nonneg _ (by norm_num)
      rw [sub_nonneg]
      exact_mod_cast hc.le
    rw [max_eq_right h0, Int.cast_sub, Int.cast_natCast, Int.cast_natCast]
  · rw [if_neg hc]
    rw [max_eq_left (sub_nonpos.mpr (show ((min e (cur / minutesPerDay * minutesPerDay + we) : ℕ) : ℤ)
        ≤ ((max s (cur / minutesPerDay * minutesPerDay + ws) : ℕ) : ℤ) from by exact_mod_cast not_lt.mp hc))]
    simp

lemma sum_Ico_drop (f : ℕ → ℤ) (a b c : ℕ) (hab : a ≤ b)
    (hz : ∀ x, a ≤ x → x < b → f x = 0) :
    Finset.sum (Finset.Ico a c) f = Finset.sum (Finset.Ico b c) f := by
  refine (Finset.sum_subset ?_ ?_).symm
  · intro x hx
    simp only [Finset.mem_Ico] at hx ⊢
    omega
  · intro x hx hnx
    simp only [Finset.mem_Ico] at hx hnx
    exact hz x hx.1 (by omega)

lemma sum_days_zero_of_exit (s e cur : ℕ) (city : List Char)
    (hinv : cur = s ∨ (cur % minutesPerDay = 0 ∧ s / minutesPerDay < cur / minutesPerDay))
    (hend : e ≤ cur) :
    Finset.sum (Finset.Ico (cur / minutesPerDay) (e / minutesPerDay + 1))
      (dayOverlapMinutes s e city) = 0 := by
  apply Finset.sum_eq_zero
  intro x hx
  simp only [Finset.mem_Ico] at hx
  apply dayOverlapMinutes_eq_zero_left
  rcases hinv with rfl | ⟨hmod, hlt2⟩
  · exact le_trans hend (le_max_left _ _)
  · have : cur ≤ x * minutesPerDay := by
      simp only [minutesPerDay] at *
      omega
    exact le_trans (le_trans hend this) (le_max_right _ _)

lemma wtLoop_eq_sum (start_dt end_dt : ℕ) (city : List Char) :
    ∀ fuel current_dt, end_dt - current_dt ≤ fuel →
      (current_dt = start_dt ∨
        (current_dt % minutesPerDay = 0 ∧
          start_dt / minutesPerDay < current_dt / minutesPerDay)) →
      wtLoop start_dt end_dt city current_dt =
        ((Finset.sum (Finset.Ico (current_dt / minutesPerDay) (end_dt / minutesPerDay + 1))
          (dayOverlapMinutes start_dt end_dt city) : ℤ) : ℚ) / 60 := by
  intro fuel
  induction fuel with
  | zero =>
    intro cur hf hinv
    rw [wtLoop, dif_neg (by omega)]
    rw [sum_days_zero_of_exit _ _ _ _ hinv (by omega)]
    simp
  | succ n ih =>
    intro cur hf hinv
    by_cases hlt : cur < end_dt
    · have hdle : cur / minutesPerDay ≤ end_dt / minutesPerDay := Nat.div_le_div_right hlt.le
      have hdge : start_dt / minutesPerDay ≤ cur / minutesPerDay := by
        rcases hinv with rfl | ⟨_, h2⟩
        · exact le_refl _
        · exact h2.le
      have hcurlt : cur < (cur / minutesPerDay + 1) * minutesPerDay := by
        simp only [minutesPerDay] at *
        omega
      rw [wtLoop, dif_pos hlt]
      have h3 : cur / minutesPerDay % 7 < 5 ∨ cur / minutesPerDay % 7 = 5
          ∨ cur / minutesPerDay % 7 = 6 := by omega
      rcases h3 with h5 | h5 | h5
      · have hw : is_working_day cur = true := by
          simp only [is_working_day, decide_eq_true_eq]
          exact h5
        rw [if_neg (by simp [hw])]
        obtain ⟨⟨ws, we⟩, hgw⟩ := get_working_hours_isSome cur city
        rw [hgw]
        dsimp only
        rw [dayTerm_eq start_dt end_dt cur ws we city hlt hinv h5 hgw]
        have hnd : next_day_start cur 1 / minutesPerDay = cur / minutesPerDay + 1 :=
          Nat.mul_div_cancel _ (by simp [minutesPerDay])
        rw [ih (next_day_start cur 1)
          (by simp only [next_day_start, minutesPerDay] at *; omega)
          (Or.inr ⟨Nat.mul_mod_left _ _, by rw [hnd]; omega⟩)]
        rw [hnd]
        rw [Finset.sum_eq_sum_Ico_succ_bot
          (show cur / minutesPerDay < end_dt / minutesPerDay + 1 by omega)]
        push_cast
        ring
      · have hw : is_working_day cur = false := by
          simp only [is_working_day, decide_eq_false_iff_not]
          omega
        rw [if_pos hw, if_pos h5]
        have hnd : next_day_start cur 2 / minutesPerDay = cur / minutesPerDay + 2 :=
          Nat.mul_div_cancel _ (by simp [minutesPerDay])
        rw [ih (next_day_start cur 2)
          (by simp only [next_day_start, minutesPerDay] at *; omega)
          (Or.inr ⟨Nat.mul_mod_left _ _, by rw [hnd]; omega⟩)]
        rw [hnd]
        rw [sum_Ico_drop (dayOverlapMinutes start_dt end_dt city)
          (cur / minutesPerDay) (cur / minutesPerDay + 2) (end_dt / minutesPerDay + 1)
          (by omega)
          (fun x hx1 hx2 => dayOverlapMinutes_weekend _ _ _ _ (by omega))]
      · have hw : is_working_day cur = false := by
          simp only [is_working_day, decide_eq_false_iff_not]
          omega
        rw [if_pos hw, if_neg (by omega), if_pos h5]
        have hnd : next_day_start cur 1 / minutesPerDay = cur / minutesPerDay + 1 :=
          Nat.mul_div_cancel _ (by simp [minutesPerDay])
        rw [ih (next_day_start cur 1)
          (by simp only [next_day_start, minutesPerDay] at *; omega)
          (Or.inr ⟨Nat.mul_mod_left _ _, by rw [hnd]; omega⟩)]
        rw [hnd]
        rw [sum_Ico_drop (dayOverlapMinutes start_dt end_dt city)
          (cur / minutesPerDay) (cur / minutesPerDay + 1) (end_dt / minutesPerDay + 1)
          (by omega)
          (fun x hx1 hx2 => dayOverlapMinutes_weekend _ _ _ _ (by omega))]
    · rw [wtLoop, dif_neg hlt]
      rw [sum_days_zero_of_exit _ _ _ _ hinv (by omega)]
      simp

lemma calculate_working_time_eq_sum (s e : ℕ) (city : List Char) :
    calculate_working_time s e city =
      ((Finset.sum (Finset.Ico (s / minutesPerDay) (e / minutesPerDay + 1))
        (dayOverlapMinutes s e city) : ℤ) : ℚ) / 60 := by
  unfold calculate_working_time
  split
  · rename_i h
    rw [Finset.sum_eq_zero]
    · simp
    · intro x hx
      exact dayOverlapMinutes_eq_zero_left _ _ _ _ (le_trans h (le_max_left _ _))
  · exact wtLoop_eq_sum s e city (e - s) s (le_refl _) (Or.inl rfl)

lemma calculate_working_time_nonneg (s e : ℕ) (city : List Char) :
    0 ≤ calculate_working_time s e city := by
  rw [calculate_working_time_eq_sum]
  apply div_nonneg _ (by norm_num)
  have h : (0 : ℤ) ≤ Finset.sum (Finset.Ico (s / minutesPerDay) (e / minutesPerDay + 1))
      (dayOverlapMinutes s e city) :=
    Finset.sum_nonneg (fun i _ => dayOverlapMinutes_nonneg s e city i)
  exact_mod_cast h

lemma dayOverlapMinutes_split (a b c : ℕ) (city : List Char) (d : ℕ)
    (hab : a ≤ b) (hbc : b ≤ c) :
    dayOverlapMinutes a c city d
      = dayOverlapMinutes a b city d + dayOverlapMinutes b c city d := by
  unfold dayOverlapMinutes
  split
  · simp
  · rcases hg : get_working_hours (d * minutesPerDay) city with _ | ⟨ws, we⟩ <;> simp only [hg]
    · simp
    · omega

lemma calculate_working_time_split (a b c : ℕ) (city : List Char)
    (hab : a ≤ b) (hbc : b ≤ c) :
    calculate_working_time a c city
      = calculate_working_time a b city + calculate_working_time b c city := by
  rw [calculate_working_time_eq_sum a c, calculate_working_time_eq_sum a b,
    calculate_working_time_eq_sum b c, div_add_div_same, ← Int.cast_add]
  congr 1
  have hdivab : a / minutesPerDay ≤ b / minutesPerDay := Nat.div_le_div_right hab
  have hdivbc : b / minutesPerDay ≤ c / minutesPerDay := Nat.div_le_div_right hbc
  have h1 : Finset.sum (Finset.Ico (a / minutesPerDay) (b / minutesPerDay + 1))
        (dayOverlapMinutes a b city)
      = Finset.sum (Finset.Ico (a / minutesPerDay) (c / minutesPerDay + 1))
        (dayOverlapMinutes a b city) := by
    apply Finset.sum_subset
    · intro x hx
      simp only [Finset.mem_Ico] at *
      omega
    · intro x hx hnx
      simp only [Finset.mem_Ico] at hx hnx
      apply dayOverlapMinutes_eq_zero_left
      have hb2 : b ≤ x * minutesPerDay := by
        simp only [minutesPerDay] at *
        omega
      exact le_trans hb2 (le_max_right _ _)
  have h2 : Finset.sum (Finset.Ico (b / minutesPerDay) (c / minutesPerDay + 1))
        (dayOverlapMinutes b c city)
      = Finset.sum (Finset.Ico (a / minutesPerDay) (c / minutesPerDay + 1))
        (dayOverlapMinutes b c city) := by
    apply Finset.sum_subset
    · intro x hx
      simp only [Finset.mem_Ico] at *
      omega
    · intro x hx hnx
      simp only [Finset.mem_Ico] at hx hnx
      apply dayOverlapMinutes_eq_zero_right
      simp only [minutesPerDay] at *
      omega
  rw [h1, h2, ← Finset.sum_add_distrib]
  exact_mod_cast Finset.sum_congr rfl
    (fun d _ => dayOverlapMinutes_split a b c city d hab hbc)

lemma wtCount_le (s e : ℕ) (city : List Char) :
    ∀ fuel cur, e - cur ≤ fuel →
      wtCount s e city cur ≤ e / minutesPerDay + 1 - cur / minutesPerDay := by
  intro fuel
  induction fuel with
  | zero =>
    intro cur hf
    rw [wtCount, dif_neg (by omega)]
    exact Nat.zero_le _
  | succ n ih =>
    intro cur hf
    by_cases hlt : cur < e
    · have hdle : cur / minutesPerDay ≤ e / minutesPerDay := Nat.div_le_div_right hlt.le
      rw [wtCount, dif_pos hlt]
      by_cases hw : is_working_day cur = false
      · rw [if_pos hw]
        by_cases h5 : cur / minutesPerDay % 7 = 5
        · rw [if_pos h5]
          have hrec := ih (next_day_start cur 2)
            (by simp only [next_day_start, minutesPerDay] at *; omega)
          simp only [next_day_start, minutesPerDay] at *
          omega
        · rw [if_neg h5]
          by_cases h6 : cur / minutesPerDay % 7 = 6
          · rw [if_pos h6]
            have hrec := ih (next_day_start cur 1)
              (by simp only [next_day_start, minutesPerDay] at *; omega)
            simp only [next_day_start, minutesPerDay] at *
            omega
          · rw [if_neg h6]
            have hrec := ih (cur + minutesPerDay)
              (by simp only [minutesPerDay] at *; omega)
            simp only [minutesPerDay] at *
            omega
      · rw [if_neg hw]
        rcases hgw : get_working_hours cur city with _ | ⟨ws, we⟩ <;> dsimp only
        · have hrec := ih (next_day_start cur 1)
            (by simp only [next_day_start, minutesPerDay] at *; omega)
          simp only [next_day_start, minutesPerDay] at *
          omega
        · have hrec := ih (next_day_start cur 1)
            (by simp only [next_day_start, minutesPerDay] at *; omega)
          simp only [next_day_start, minutesPerDay] at *
          omega
    · rw [wtCount, dif_neg hlt]
      exact Nat.zero_le _

/-- Claim C1, counterexample: on a Saturday (day index 5 of the epoch week)
the lookup for Moscow returns a window, not `none`, contradicting the claim
that weekend lookups always return `none`. -/
theorem spec_C1_counterexample :
    get_working_hours (5 * minutesPerDay) ("москва".toList) ≠ none := by decide

/-- Claim C1, amended: for every key and every datetime whose weekday is
Saturday or Sunday, `get_working_hours` does not return `none`; it returns
exactly the same Mon-Thu window it returns on a Monday (weekday is only
consulted to pick the Friday window; weekend exclusion is enforced by
`calculate_working_time` instead). -/
theorem spec_C1_amended (city : List Char) (dt : ℕ)
    (h : dt / minutesPerDay % 7 = 5 ∨ dt / minutesPerDay % 7 = 6) :
    get_working_hours dt city ≠ none ∧
      get_working_hours dt city = get_working_hours 0 city := by
  unfold get_working_hours
  rw [if_neg (by omega), if_neg (by simp [minutesPerDay])]
  exact ⟨by simp, rfl⟩

/-- Witness for the amended C1 at a concrete Saturday instant. -/
theorem spec_C1_witness :
    get_working_hours (5 * minutesPerDay) ("москва".toList) ≠ none ∧
      get_working_hours (5 * minutesPerDay) ("москва".toList)
        = get_working_hours 0 ("москва".toList) :=
  spec_C1_amended ("москва".toList) (5 * minutesPerDay) (by decide)

/-- Claim C2: a span lying entirely inside one working window on a single
working day yields exactly `(end - start)` expressed in hours. -/
theorem spec_C2 (start_dt end_dt : ℕ) (city : List Char) (work_start work_end : ℕ)
    (hle : start_dt ≤ end_dt)
    (hwd : start_dt / minutesPerDay % 7 < 5)
    (hgw : get_working_hours start_dt city = some (work_start, work_end))
    (hopen : start_dt / minutesPerDay * minutesPerDay + work_start ≤ start_dt)
    (hclose : end_dt ≤ start_dt / minutesPerDay * minutesPerDay + work_end) :
    calculate_working_time start_dt end_dt city
      = ((end_dt : ℚ) - (start_dt : ℚ)) / 60 := by
  have hb := get_working_hours_lt _ _ _ _ hgw
  have hsame : end_dt / minutesPerDay = start_dt / minutesPerDay := by
    simp only [minutesPerDay] at *
    omega
  have hgw' : get_working_hours (start_dt / minutesPerDay * minutesPerDay) city
      = some (work_start, work_end) := by
    rw [get_working_hours_congr (start_dt / minutesPerDay * minutesPerDay) start_dt city
      (by rw [Nat.mul_div_cancel _ (by simp [minutesPerDay])])]
    exact hgw
  rw [calculate_working_time_eq_sum, hsame, Nat.Ico_succ_singleton, Finset.sum_singleton]
  unfold dayOverlapMinutes
  rw [if_neg (by omega), hgw']
  dsimp only
  rw [min_eq_left hclose, max_eq_left hopen]
  rw [max_eq_right (sub_nonneg.mpr
    (show ((start_dt : ℕ) : ℤ) ≤ ((end_dt : ℕ) : ℤ) from by exact_mod_cast hle))]
  push_cast
  ring

/-- Witness for C2: Monday 10:30 to Monday 15:00 in Moscow is 4.5 hours. -/
theorem spec_C2_witness :
    calculate_working_time 630 900 ("москва".toList) = ((900 : ℚ) - 630) / 60 :=
  spec_C2 630 900 ("москва".toList) 540 1080 (by norm_num) (by decide)
    (by decide) (by decide) (by decide)

/-- Claim C3: a span contained in one single non-working day (Saturday or
Sunday) yields 0, for every location. -/
theorem spec_C3 (start_dt end_dt : ℕ) (city : List Char)
    (hsame : start_dt / minutesPerDay = end_dt / minutesPerDay)
    (hwk : start_dt / minutesPerDay % 7 = 5 ∨ start_dt / minutesPerDay % 7 = 6) :
    calculate_working_time start_dt end_dt city = 0 := by
  rw [calculate_working_time_eq_sum, ← hsame, Nat.Ico_succ_singleton,
    Finset.sum_singleton, dayOverlapMinutes_weekend _ _ _ _ (by omega)]
  simp

/-- Witness for C3 on a concrete Saturday span. -/
theorem spec_C3_witness : calculate_working_time 7300 7400 [] = 0 :=
  spec_C3 7300 7400 [] (by decide) (by decide)

/-- Claim C4: `calculate_working_time` is additive at every split point
`a <= b <= c`, with no double counting and no gaps. -/
theorem spec_C4 (a b c : ℕ) (city : List Char) (hab : a ≤ b) (hbc : b ≤ c) :
    calculate_working_time a c city
      = calculate_working_time a b city + calculate_working_time b c city :=
  calculate_working_time_split a b c city hab hbc

/-- Witness for C4: Friday 10:00 through Monday 11:00 splits at Saturday noon. -/
theorem spec_C4_witness :
    calculate_working_time (4 * 1440 + 600) (7 * 1440 + 660) []
      = calculate_working_time (4 * 1440 + 600) (5 * 1440 + 720) []
        + calculate_working_time (5 * 1440 + 720) (7 * 1440 + 660) [] :=
  spec_C4 (4 * 1440 + 600) (5 * 1440 + 720) (7 * 1440 + 660) []
    (by norm_num) (by norm_num)

/-- Claim C5: for a fixed start and location, `calculate_working_time` is
monotone in the end instant. -/
theorem spec_C5 (start_dt end1 end2 : ℕ) (city : List Char) (h : end1 ≤ end2) :
    calculate_working_time start_dt end1 city
      ≤ calculate_working_time start_dt end2 city := by
  by_cases hs : end1 ≤ start_dt
  · have h1 : calculate_working_time start_dt end1 city = 0 := by
      unfold calculate_working_time
      rw [if_pos hs]
    rw [h1]
    exact calculate_working_time_nonneg _ _ _
  · push_neg at hs
    rw [calculate_working_time_split start_dt end1 end2 city hs.le h]
    exact le_add_of_nonneg_right (calculate_working_time_nonneg _ _ _)

/-- Witness for C5 on a concrete pair of ends. -/
theorem spec_C5_witness :
    calculate_working_time 600 700 ("москва".toList)
      ≤ calculate_working_time 600 800 ("москва".toList) :=
  spec_C5 600 700 800 ("москва".toList) (by norm_num)

/-- Claim C6: when `start_dt >= end_dt` the computation returns 0
immediately (total function, no error). -/
theorem spec_C6 (start_dt end_dt : ℕ) (city : List Char) (h : end_dt ≤ start_dt) :
    calculate_working_time start_dt end_dt city = 0 := by
  unfold calculate_working_time
  rw [if_pos h]

/-- Witness for C6 at a concrete reversed span. -/
theorem spec_C6_witness : calculate_working_time 1000 500 ("москва".toList) = 0 :=
  spec_C6 1000 500 ("москва".toList) (by norm_num)

/-- Claim C7: the day-walking loop terminates: every cursor update
`next_day_start cur k` (with `k >= 1`) strictly advances the cursor, and
the number of loop iterations is bounded by the number of calendar days
between the cursor and the end instant. -/
theorem spec_C7 :
    (∀ cur k, 1 ≤ k → cur < next_day_start cur k) ∧
      (∀ start_dt end_dt city cur, wtCount start_dt end_dt city cur
        ≤ end_dt / minutesPerDay + 1 - cur / minutesPerDay) := by
  constructor
  · intro cur k hk
    simp only [next_day_start, minutesPerDay]
    omega
  · intro s e city cur
    exact wtCount_le s e city (e - cur) cur (le_refl _)

/-- Witness for C7 at concrete inputs. -/
theorem spec_C7_witness :
    (0 : ℕ) < next_day_start 0 1 ∧
      wtCount 0 2880 [] 0 ≤ 2880 / minutesPerDay + 1 - 0 / minutesPerDay :=
  ⟨spec_C7.1 0 1 (by norm_num), spec_C7.2 0 2880 [] 0⟩

/-- Claim C8: `calculate_reaction_time` is `none` exactly when an instant is
absent, `0` whenever both are present with `start <= assigned` (never
negative), and otherwise delegates to `calculate_working_time`; every
present result is nonnegative. -/
theorem spec_C8 (assigned_dt start_dt : Option ℕ) (city : List Char) :
    (calculate_reaction_time assigned_dt start_dt city = none
      ↔ assigned_dt = none ∨ start_dt = none) ∧
    (∀ a s, assigned_dt = some a → start_dt = some s → s ≤ a →
      calculate_reaction_time assigned_dt start_dt city = some 0) ∧
    (∀ a s, assigned_dt = some a → start_dt = some s → a < s →
      calculate_reaction_time assigned_dt start_dt city
        = some (calculate_working_time a s city)) ∧
    (∀ q, calculate_reaction_time assigned_dt start_dt city = some q → 0 ≤ q) := by
  rcases assigned_dt with _ | a <;> rcases start_dt with _ | s
  · exact ⟨by simp [calculate_reaction_time], by simp, by simp,
      by simp [calculate_reaction_time]⟩
  · exact ⟨by simp [calculate_reaction_time], by simp, by simp,
      by simp [calculate_reaction_time]⟩
  · exact ⟨by simp [calculate_reaction_time], by simp, by simp,
      by simp [calculate_reaction_time]⟩
  refine ⟨?_, ?_, ?_, ?_⟩
  · simp only [calculate_reaction_time]
    constructor
    · intro hq
      split at hq <;> simp at hq
    · intro hor
      rcases hor with h | h <;> simp at h
  · intro a2 s2 ha hs hle
    injection ha with ha
    injection hs with hs
    subst ha
    subst hs
    simp only [calculate_reaction_time, if_pos hle]
  · intro a2 s2 ha hs hlt
    injection ha with ha
    injection hs with hs
    subst ha
    subst hs
    simp only [calculate_reaction_time, if_neg (not_le.mpr hlt)]
  · intro q hq
    simp only [calculate_reaction_time] at hq
    split at hq <;> simp only [Option.some.injEq] at hq <;> rw [← hq]
    exact calculate_working_time_nonneg _ _ _

/-- Witness for C8: assigned after start clips to zero. -/
theorem spec_C8_witness :
    calculate_reaction_time (some 100) (some 50) ("москва".toList) = some 0 :=
  (spec_C8 (some 100) (some 50) ("москва".toList)).2.1 100 50 rfl rfl (by norm_num)

/-- Claim C10: `get_working_hours` always returns a window pair for every
city string and datetime, weekends included, so the defensive no-window
branch of the day-walking loop can never be taken. -/
theorem spec_C10 (dt : ℕ) (city : List Char) :
    ∃ w, get_working_hours dt city = some w :=
  get_working_hours_isSome dt city

lemma char_toNat_ofNat (n : ℕ) (h : n < 55296) : (Char.ofNat n).toNat = n := by
  have hv : n.isValidChar := Or.inl h
  simp only [Char.ofNat, hv, dif_pos]
  rfl

lemma ruCharLower_fixed (c : Char)
    (h1 : ¬(0x410 ≤ c.toNat ∧ c.toNat ≤ 0x42F)) (h2 : c.toNat ≠ 0x401)
    (h3 : ¬(65 ≤ c.toNat ∧ c.toNat ≤ 90)) : ruCharLower c = c := by
  unfold ruCharLower
  rw [if_neg h1, if_neg h2, if_neg h3]

lemma ruCharLower_not_upper (c : Char) :
    ¬(0x410 ≤ (ruCharLower c).toNat ∧ (ruCharLower c).toNat ≤ 0x42F) ∧
      (ruCharLower c).toNat ≠ 0x401 ∧
      ¬(65 ≤ (ruCharLower c).toNat ∧ (ruCharLower c).toNat ≤ 90) := by
  unfold ruCharLower
  split_ifs with h1 h2 h3
  · rw [char_toNat_ofNat _ (by omega)]
    omega
  · rw [char_toNat_ofNat _ (by omega)]
    omega
  · rw [char_toNat_ofNat _ (by omega)]
    omega
  · omega

lemma ruCharLower_idem (c : Char) : ruCharLower (ruCharLower c) = ruCharLower c := by
  obtain ⟨a, b, d⟩ := ruCharLower_not_upper c
  exact ruCharLower_fixed _ a b d

lemma mem_pyStrip {c : Char} {l : List Char} (h : c ∈ pyStrip l) : c ∈ l := by
  unfold pyStrip at h
  rw [List.mem_reverse] at h
  have h2 := (List.dropWhile_sublist _).subset h
  rw [List.mem_reverse] at h2
  exact (List.dropWhile_sublist _).subset h2

lemma pyStrip_eq_rdrop (l : List Char) :
    pyStrip l = List.rdropWhile Char.isWhitespace (l.dropWhile Char.isWhitespace) := rfl

lemma pyStrip_idem (l : List Char) : pyStrip (pyStrip l) = pyStrip l := by
  rw [pyStrip_eq_rdrop, pyStrip_eq_rdrop]
  have h1 : List.dropWhile Char.isWhitespace
      (List.rdropWhile Char.isWhitespace (l.dropWhile Char.isWhitespace))
      = List.rdropWhile Char.isWhitespace (l.dropWhile Char.isWhitespace) := by
    rcases hR : List.rdropWhile Char.isWhitespace (l.dropWhile Char.isWhitespace)
      with _ | ⟨a, r⟩
    · simp
    · obtain ⟨t, ht⟩ := List.rdropWhile_prefix Char.isWhitespace
        (l.dropWhile Char.isWhitespace)
      rw [hR] at ht
    -- ht : a :: r ++ t = l.dropWhile Char.isWhitespace
      have hne : l.dropWhile Char.isWhitespace ≠ [] := by
        rw [← ht]
        simp
      have hpa : Char.isWhitespace a = false := by
        have hq : (l.dropWhile Char.isWhitespace).head? = some a := by
          rw [← ht]
          rfl
        have hh := List.head?_dropWhile_not Char.isWhitespace l
        rw [hq] at hh
        exact hh
      rw [List.dropWhile_cons, hpa]
      simp
  rw [h1, List.rdropWhile_idempotent]

lemma map_fix_pyStrip (l : List Char) :
    (pyStrip (l.map ruCharLower)).map ruCharLower = pyStrip (l.map ruCharLower) := by
  have hfx : ∀ c ∈ pyStrip (l.map ruCharLower), ruCharLower c = c := by
    intro c hc
    obtain ⟨c0, _, rfl⟩ := List.mem_map.mp (mem_pyStrip hc)
    exact ruCharLower_idem c0
  rw [List.map_congr_left hfx]
  simp

lemma normalize_key_fixed : ∀ p ∈ CITY_SCHEDULES, normalize_city_name p.1 = p.1 := by
  decide

lemma normalize_city_name_unfold (city : List Char) (h : ¬ city = []) :
    normalize_city_name city =
      match CITY_SCHEDULES.find? (fun p => p.1 == pyStrip (city.map ruCharLower)) with
      | some p => p.1
      | none =>
        match CITY_SCHEDULES.find? (fun p => pyIn p.1 (pyStrip (city.map ruCharLower))
            || pyIn (pyStrip (city.map ruCharLower)) p.1) with
        | some p => p.1
        | none => pyStrip (city.map ruCharLower) := by
  unfold normalize_city_name
  rw [if_neg h]

/-- Claim C9: city-name normalization is total (it is a function defined on
every string) and idempotent: normalizing twice equals normalizing once. -/
theorem spec_C9 (city : List Char) :
    normalize_city_name (normalize_city_name city) = normalize_city_name city := by
  by_cases hempty : city = []
  · rw [hempty]
    rfl
  · rw [normalize_city_name_unfold city hempty]
    rcases hf1 : CITY_SCHEDULES.find?
        (fun p => p.1 == pyStrip (city.map ruCharLower)) with _ | p
    · rw [hf1]
      rcases hf2 : CITY_SCHEDULES.find?
          (fun p => pyIn p.1 (pyStrip (city.map ruCharLower))
            || pyIn (pyStrip (city.map ruCharLower)) p.1) with _ | p
      · rw [hf2]
        by_cases hcl : pyStrip (city.map ruCharLower) = []
        · rw [hcl]
          rfl
        · rw [normalize_city_name_unfold _ hcl, map_fix_pyStrip, pyStrip_idem, hf1, hf2]
      · rw [hf2]
        exact normalize_key_fixed p (List.mem_of_find?_eq_some hf2)
    · rw [hf1]
      exact normalize_key_fixed p (List.mem_of_find?_eq_some hf1)
